import Mathlib

/-!
Verification of the stereo-visualizer audio analysis pipeline (`src/main.rs`).

The Rust program decodes a stereo file, splits interleaved i16 PCM samples
into normalized left/right channel buffers, and on every frame in which a
full analysis window fits at the current playback offset it runs a forward
FFT on each channel window and derives per-bin smoothed amplitudes and a
directional (pan) value.

Modelling choices:
* `f32` samples and amplitudes are modelled as exact rationals `ℚ`; the
  claims under study are about the algebraic dataflow, not rounding.
* The FFT plan (`Arc<dyn FFT<f32>>`, an external `rustfft` object) is
  modelled as an explicit function parameter `fft : List Cpx → List Cpx`;
  `rustfft`'s `process` writes exactly one output value per input value,
  which appears as the hypothesis `∀ l, (fft l).length = l.length` where
  a claim needs it.
* Playback transport (`sound.playing()`, `sound.elapsed()`) is external
  real time; `update` receives the playing flag and the computed sample
  offset `floor(elapsed * sample_rate)` as parameters.
* Decoding (`rodio::Decoder`) and `ggez::audio::Source::new` are external;
  `load_sound` receives their results (`Except`) as parameters.
-/

namespace StereoVis

/-- Complex value with rational components, standing for
`rustfft::num_complex::Complex<f32>`. -/
structure Cpx where
  re : ℚ
  im : ℚ
deriving DecidableEq, Repr

/-- `Complex::zero()`. -/
def Cpx.zero : Cpx := ⟨0, 0⟩

/-- One per-bin output value pair (`struct DirectionalSource`). -/
structure DirectionalSource where
  dir : ℚ
  amp : ℚ
deriving DecidableEq, Repr

/-- `DirectionalSource::new()`: both fields start at `0.0`. -/
def DirectionalSource.new : DirectionalSource := ⟨0, 0⟩

/-- The two `ggez::GameError` variants produced by `load_sound`. -/
inductive GErr where
  | AudioError : String → GErr
  | FilesystemError : String → GErr
deriving DecidableEq, Repr

/-- Result of a successful `rodio` decode: reported channel count, sample
rate, and the interleaved i16 sample stream. -/
structure Decoded where
  channels : ℕ
  sample_rate : ℕ
  samples : List ℤ
deriving DecidableEq, Repr

/-- `struct MainState` (the FFT plan is a function parameter of `update`
rather than a stored field, and the playback object is reduced to whether a
sound is loaded). -/
structure MainState where
  canvas_width : ℚ
  canvas_height : ℚ
  sound : Option Unit
  sample_rate : ℕ
  left_wave : List ℚ
  right_wave : List ℚ
  left_fft : List Cpx
  right_fft : List Cpx
  left_rev : List ℚ
  right_rev : List ℚ
  directions : List DirectionalSource
deriving DecidableEq, Repr

/-- `let fft_size = 1024;` in `MainState::new`. -/
def fft_size : ℕ := 1024

/-- `MainState::new`: spectrum buffers sized `fft_size`, smoothing and
direction arrays sized `fft_size / 2`, everything zeroed, no sound loaded. -/
def MainState.new (width height : ℚ) : MainState :=
  { canvas_width := width
    canvas_height := height
    sound := none
    sample_rate := 0
    left_wave := []
    right_wave := []
    left_fft := List.replicate fft_size Cpx.zero
    right_fft := List.replicate fft_size Cpx.zero
    left_rev := List.replicate (fft_size / 2) 0
    right_rev := List.replicate (fft_size / 2) 0
    directions := List.replicate (fft_size / 2) DirectionalSource.new }

/-- `i16::MAX`, the normalization divisor in `load_sound`. -/
def i16max : ℤ := 32767

/-- The left-channel extraction in `load_sound`: enumerate the interleaved
samples, keep even indices (`idx % 2 == 0`), and divide each kept sample by
`i16::MAX`. -/
def leftChan (samples : List ℤ) : List ℚ :=
  (samples.enum.filterMap fun p => if p.1 % 2 = 0 then some p.2 else none).map
    fun (amp : ℤ) => (amp : ℚ) / (i16max : ℚ)

/-- The right-channel extraction in `load_sound`: enumerate the interleaved
samples, keep odd indices (`idx % 2 != 0`), and divide each kept sample by
`i16::MAX`. -/
def rightChan (samples : List ℤ) : List ℚ :=
  (samples.enum.filterMap fun p => if p.1 % 2 ≠ 0 then some p.2 else none).map
    fun (amp : ℤ) => (amp : ℚ) / (i16max : ℚ)

/-- `MainState::load_sound`: clear both wave buffers and drop the current
sound; create the playback source (`audioNew`, may fail and propagate);
then decode (`dec`): on a 2-channel decode store the sample rate and the
split/normalized channels, on any other channel count report
`AudioError "Channels must be stereo"`, and on a decode failure report
`FilesystemError`. Returns the mutated state together with the
`GameResult`. -/
def MainState.load_sound (s : MainState) (audioNew : Except GErr Unit)
    (dec : Except String Decoded) : MainState × Except GErr Unit :=
  let s1 := { s with left_wave := [], right_wave := [], sound := none }
  match audioNew with
  | .error e => (s1, .error e)
  | .ok _ =>
    let s2 := { s1 with sound := some () }
    match dec with
    | .ok d =>
      if d.channels = 2 then
        ({ s2 with
            sample_rate := d.sample_rate
            left_wave := leftChan d.samples
            right_wave := rightChan d.samples }, .ok ())
      else
        (s2, .error (GErr.AudioError "Channels must be stereo"))
    | .error e => (s2, .error (GErr.FilesystemError e))

/-- The exponential smoothing statement
`state += (amp - state) * 0.9` from the per-bin loop. -/
def smoothStep (st amp : ℚ) : ℚ := st + (amp - st) * (9 / 10)

/-- One iteration of the per-bin loop in `MainState::update`, at index
`idx`: read `|Re(spectrum[idx])|` for each channel, smooth both energy
values, and write amplitude (max of the two) and direction
(difference over `max(amp, 1.0)`). -/
def binStep (lf rf : List Cpx) (acc : List ℚ × List ℚ × List DirectionalSource)
    (idx : ℕ) : List ℚ × List ℚ × List DirectionalSource :=
  let left_amp := |(lf.getD idx Cpx.zero).re|
  let right_amp := |(rf.getD idx Cpx.zero).re|
  let lrv := smoothStep (acc.1.getD idx 0) left_amp
  let rrv := smoothStep (acc.2.1.getD idx 0) right_amp
  let amp := max lrv rrv
  let dir := (rrv - lrv) / max amp 1
  (acc.1.set idx lrv, acc.2.1.set idx rrv, acc.2.2.set idx ⟨dir, amp⟩)

/-- The whole per-bin loop `for idx in 0..self.directions.len()`. -/
def runBins (lf rf : List Cpx) (lr rr : List ℚ) (dirs : List DirectionalSource) :
    List ℚ × List ℚ × List DirectionalSource :=
  (List.range dirs.length).foldl (binStep lf rf) (lr, rr, dirs)

/-- `EventHandler::update` for one frame.  If a sound is loaded and
playing, and the window `[offset, offset + fft_len)` fits in both wave
buffers, run the FFT on both windows (samples promoted to complex with
zero imaginary part) and the per-bin loop; otherwise leave the state
untouched.  The Rust handler always returns `Ok(())`. -/
def MainState.update (fft : List Cpx → List Cpx) (playing : Bool) (offset : ℕ)
    (s : MainState) : MainState :=
  match s.sound with
  | some _ =>
    if playing then
      if offset + s.left_fft.length ≤ s.left_wave.length ∧
          offset + s.right_fft.length ≤ s.right_wave.length then
        let left_input := ((s.left_wave.drop offset).take s.left_fft.length).map
          fun a => Cpx.mk a 0
        let lf := fft left_input
        let right_input := ((s.right_wave.drop offset).take s.right_fft.length).map
          fun a => Cpx.mk a 0
        let rf := fft right_input
        let res := runBins lf rf s.left_rev s.right_rev s.directions
        { s with
            left_fft := lf
            right_fft := rf
            left_rev := res.1
            right_rev := res.2.1
            directions := res.2.2 }
      else s
    else s
  | none => s

/-- A sequence of frames: fold `update` over a list of
(playing flag, offset) parameter pairs. -/
def MainState.updates (fft : List Cpx → List Cpx) (steps : List (Bool × ℕ))
    (s : MainState) : MainState :=
  steps.foldl (fun st p => st.update fft p.1 p.2) s

/-- The length invariant of the analysis buffers. -/
def MainState.sizesOk (s : MainState) : Prop :=
  s.left_fft.length = 1024 ∧ s.right_fft.length = 1024 ∧
  s.left_rev.length = 512 ∧ s.right_rev.length = 512 ∧
  s.directions.length = 512

instance (s : MainState) : Decidable s.sizesOk := by
  unfold MainState.sizesOk; infer_instance

/-! ### Generic lemmas about `List.set` and `List.getD` -/

theorem getD_set_of_ne {α : Type} {l : List α} {i j : ℕ} {x d : α} (h : i ≠ j) :
    (l.set i x).getD j d = l.getD j d := by
  unfold List.getD
  rw [List.get?_eq_getElem?, List.get?_eq_getElem?, List.getElem?_set_ne h]

theorem getD_set_of_lt {α : Type} {l : List α} {i : ℕ} {x d : α} (h : i < l.length) :
    (l.set i x).getD i d = x := by
  rw [List.getD_eq_getElem _ _ (by simpa using h)]
  simp

/-! ### Characterization of the per-bin loop -/

theorem foldl_binStep_lengths (lf rf : List Cpx) (l : List ℕ)
    (acc : List ℚ × List ℚ × List DirectionalSource) :
    (l.foldl (binStep lf rf) acc).1.length = acc.1.length ∧
    (l.foldl (binStep lf rf) acc).2.1.length = acc.2.1.length ∧
    (l.foldl (binStep lf rf) acc).2.2.length = acc.2.2.length := by
  induction l generalizing acc with
  | nil => exact ⟨rfl, rfl, rfl⟩
  | cons a t ih =>
    have h := ih (binStep lf rf acc a)
    simpa [binStep] using h

theorem foldl_binStep_getD_of_not_mem (lf rf : List Cpx) (l : List ℕ)
    (acc : List ℚ × List ℚ × List DirectionalSource) (i : ℕ)
    (h : ∀ j ∈ l, j ≠ i) :
    (l.foldl (binStep lf rf) acc).1.getD i 0 = acc.1.getD i 0 ∧
    (l.foldl (binStep lf rf) acc).2.1.getD i 0 = acc.2.1.getD i 0 ∧
    (l.foldl (binStep lf rf) acc).2.2.getD i DirectionalSource.new =
      acc.2.2.getD i DirectionalSource.new := by
  induction l generalizing acc with
  | nil => exact ⟨rfl, rfl, rfl⟩
  | cons a t ih =>
    have ha : a ≠ i := h a (List.mem_cons_self a t)
    have ht : ∀ j ∈ t, j ≠ i := fun j hj => h j (List.mem_cons_of_mem a hj)
    have h2 := ih (binStep lf rf acc a) ht
    rw [List.foldl_cons]
    refine ⟨?_, ?_, ?_⟩
    · rw [h2.1]; exact getD_set_of_ne ha
    · rw [h2.2.1]; exact getD_set_of_ne ha
    · rw [h2.2.2]; exact getD_set_of_ne ha

theorem foldl_range_binStep_getD (lf rf : List Cpx)
    (acc : List ℚ × List ℚ × List DirectionalSource) :
    ∀ n, n ≤ acc.1.length → n ≤ acc.2.1.length → n ≤ acc.2.2.length →
    ∀ i, i < n →
    ((List.range n).foldl (binStep lf rf) acc).1.getD i 0 =
      smoothStep (acc.1.getD i 0) |(lf.getD i Cpx.zero).re| ∧
    ((List.range n).foldl (binStep lf rf) acc).2.1.getD i 0 =
      smoothStep (acc.2.1.getD i 0) |(rf.getD i Cpx.zero).re| ∧
    ((List.range n).foldl (binStep lf rf) acc).2.2.getD i DirectionalSource.new =
      { dir := (smoothStep (acc.2.1.getD i 0) |(rf.getD i Cpx.zero).re| -
            smoothStep (acc.1.getD i 0) |(lf.getD i Cpx.zero).re|) /
          max (max (smoothStep (acc.1.getD i 0) |(lf.getD i Cpx.zero).re|)
            (smoothStep (acc.2.1.getD i 0) |(rf.getD i Cpx.zero).re|)) 1
        amp := max (smoothStep (acc.1.getD i 0) |(lf.getD i Cpx.zero).re|)
          (smoothStep (acc.2.1.getD i 0) |(rf.getD i Cpx.zero).re|) } := by
  intro n
  induction n with
  | zero => intro _ _ _ i hi; exact absurd hi (by omega)
  | succ m ih =>
    intro h1 h2 h3 i hi
    have hrange : List.range (m + 1) = List.range m ++ [m] := by
      simpa using List.range_succ m
    rw [hrange, List.foldl_append, List.foldl_cons, List.foldl_nil]
    by_cases him : i < m
    · have hne : (m : ℕ) ≠ i := by omega
      have hIH := ih (by omega) (by omega) (by omega) i him
      refine ⟨?_, ?_, ?_⟩
      · rw [← hIH.1]; exact getD_set_of_ne hne
      · rw [← hIH.2.1]; exact getD_set_of_ne hne
      · rw [← hIH.2.2]; exact getD_set_of_ne hne
    · have hmi : i = m := by omega
      subst hmi
      have hunt := foldl_binStep_getD_of_not_mem lf rf (List.range i) acc i
        (fun j hj => by have := List.mem_range.mp hj; omega)
      have hlen := foldl_binStep_lengths lf rf (List.range i) acc
      have hl1 : i < ((List.range i).foldl (binStep lf rf) acc).1.length := by
        rw [hlen.1]; omega
      have hl2 : i < ((List.range i).foldl (binStep lf rf) acc).2.1.length := by
        rw [hlen.2.1]; omega
      have hl3 : i < ((List.range i).foldl (binStep lf rf) acc).2.2.length := by
        rw [hlen.2.2]; omega
      refine ⟨?_, ?_, ?_⟩
      · exact (getD_set_of_lt hl1).trans (by rw [hunt.1])
      · exact (getD_set_of_lt hl2).trans (by rw [hunt.2.1])
      · exact (getD_set_of_lt hl3).trans (by rw [hunt.1, hunt.2.1])

theorem runBins_lengths (lf rf : List Cpx) (lr rr : List ℚ)
    (dirs : List DirectionalSource) :
    (runBins lf rf lr rr dirs).1.length = lr.length ∧
    (runBins lf rf lr rr dirs).2.1.length = rr.length ∧
    (runBins lf rf lr rr dirs).2.2.length = dirs.length :=
  foldl_binStep_lengths lf rf (List.range dirs.length) (lr, rr, dirs)

theorem runBins_getD (lf rf : List Cpx) (lr rr : List ℚ)
    (dirs : List DirectionalSource) (hlr : dirs.length ≤ lr.length)
    (hrr : dirs.length ≤ rr.length) (i : ℕ) (hi : i < dirs.length) :
    (runBins lf rf lr rr dirs).1.getD i 0 =
      smoothStep (lr.getD i 0) |(lf.getD i Cpx.zero).re| ∧
    (runBins lf rf lr rr dirs).2.1.getD i 0 =
      smoothStep (rr.getD i 0) |(rf.getD i Cpx.zero).re| ∧
    (runBins lf rf lr rr dirs).2.2.getD i DirectionalSource.new =
      { dir := (smoothStep (rr.getD i 0) |(rf.getD i Cpx.zero).re| -
            smoothStep (lr.getD i 0) |(lf.getD i Cpx.zero).re|) /
          max (max (smoothStep (lr.getD i 0) |(lf.getD i Cpx.zero).re|)
            (smoothStep (rr.getD i 0) |(rf.getD i Cpx.zero).re|)) 1
        amp := max (smoothStep (lr.getD i 0) |(lf.getD i Cpx.zero).re|)
          (smoothStep (rr.getD i 0) |(rf.getD i Cpx.zero).re|) } :=
  foldl_range_binStep_getD lf rf (lr, rr, dirs) dirs.length hlr hrr le_rfl i hi

/-! ### Characterization of `MainState.update` -/

theorem update_of_frozen (fft : List Cpx → List Cpx) (playing : Bool) (offset : ℕ)
    (s : MainState)
    (h : s.sound = none ∨ playing = false ∨
      s.left_wave.length < offset + s.left_fft.length ∨
      s.right_wave.length < offset + s.right_fft.length) :
    s.update fft playing offset = s := by
  unfold MainState.update
  rcases h with h | h | h | h
  · rw [h]
  · subst h; cases s.sound <;> rfl
  · cases hso : s.sound with
    | none => rfl
    | some u =>
      cases playing with
      | false => rfl
      | true =>
        have hc : ¬(offset + s.left_fft.length ≤ s.left_wave.length ∧
            offset + s.right_fft.length ≤ s.right_wave.length) := by omega
        simp [hc]
  · cases hso : s.sound with
    | none => rfl
    | some u =>
      cases playing with
      | false => rfl
      | true =>
        have hc : ¬(offset + s.left_fft.length ≤ s.left_wave.length ∧
            offset + s.right_fft.length ≤ s.right_wave.length) := by omega
        simp [hc]

theorem update_of_analyzing (fft : List Cpx → List Cpx) (offset : ℕ) (s : MainState)
    (hs : s.sound = some ())
    (h1 : offset + s.left_fft.length ≤ s.left_wave.length)
    (h2 : offset + s.right_fft.length ≤ s.right_wave.length) :
    s.update fft true offset = { s with
      left_fft := fft (((s.left_wave.drop offset).take s.left_fft.length).map
        fun a => Cpx.mk a 0)
      right_fft := fft (((s.right_wave.drop offset).take s.right_fft.length).map
        fun a => Cpx.mk a 0)
      left_rev := (runBins
        (fft (((s.left_wave.drop offset).take s.left_fft.length).map fun a => Cpx.mk a 0))
        (fft (((s.right_wave.drop offset).take s.right_fft.length).map fun a => Cpx.mk a 0))
        s.left_rev s.right_rev s.directions).1
      right_rev := (runBins
        (fft (((s.left_wave.drop offset).take s.left_fft.length).map fun a => Cpx.mk a 0))
        (fft (((s.right_wave.drop offset).take s.right_fft.length).map fun a => Cpx.mk a 0))
        s.left_rev s.right_rev s.directions).2.1
      directions := (runBins
        (fft (((s.left_wave.drop offset).take s.left_fft.length).map fun a => Cpx.mk a 0))
        (fft (((s.right_wave.drop offset).take s.right_fft.length).map fun a => Cpx.mk a 0))
        s.left_rev s.right_rev s.directions).2.2 } := by
  unfold MainState.update
  rw [hs]
  simp [h1, h2]

theorem update_sizesOk (fft : List Cpx → List Cpx)
    (hfft : ∀ l, (fft l).length = l.length) (playing : Bool) (offset : ℕ)
    (s : MainState) (h : s.sizesOk) : (s.update fft playing offset).sizesOk := by
  obtain ⟨e1, e2, e3, e4, e5⟩ := h
  cases hso : s.sound with
  | none =>
    rw [update_of_frozen fft playing offset s (Or.inl hso)]
    exact ⟨e1, e2, e3, e4, e5⟩
  | some u =>
    cases playing with
    | false =>
      rw [update_of_frozen fft false offset s (Or.inr (Or.inl rfl))]
      exact ⟨e1, e2, e3, e4, e5⟩
    | true =>
      by_cases hg1 : offset + s.left_fft.length ≤ s.left_wave.length
      · by_cases hg2 : offset + s.right_fft.length ≤ s.right_wave.length
        · rw [update_of_analyzing fft offset s (by rw [hso]) hg1 hg2]
          refine ⟨?_, ?_, ?_, ?_, ?_⟩
          · show (fft _).length = 1024
            rw [hfft]
            simp only [List.length_map, List.length_take, List.length_drop]
            omega
          · show (fft _).length = 1024
            rw [hfft]
            simp only [List.length_map, List.length_take, List.length_drop]
            omega
          · exact ((runBins_lengths _ _ _ _ _).1).trans e3
          · exact ((runBins_lengths _ _ _ _ _).2.1).trans e4
          · exact ((runBins_lengths _ _ _ _ _).2.2).trans e5
        · rw [update_of_frozen fft true offset s (Or.inr (Or.inr (Or.inr (by omega))))]
          exact ⟨e1, e2, e3, e4, e5⟩
      · rw [update_of_frozen fft true offset s (Or.inr (Or.inr (Or.inl (by omega))))]
        exact ⟨e1, e2, e3, e4, e5⟩

theorem load_sound_analysis_fields (s : MainState) (a : Except GErr Unit)
    (dec : Except String Decoded) :
    (s.load_sound a dec).1.left_rev = s.left_rev ∧
    (s.load_sound a dec).1.right_rev = s.right_rev ∧
    (s.load_sound a dec).1.directions = s.directions ∧
    (s.load_sound a dec).1.left_fft = s.left_fft ∧
    (s.load_sound a dec).1.right_fft = s.right_fft := by
  unfold MainState.load_sound
  cases a with
  | error e => exact ⟨rfl, rfl, rfl, rfl, rfl⟩
  | ok u =>
    cases dec with
    | error e => exact ⟨rfl, rfl, rfl, rfl, rfl⟩
    | ok d => by_cases hc : d.channels = 2 <;> simp [hc]

/-- A state used to instantiate theorems with hypotheses on concrete data:
one analysis bin, two samples per channel, a loaded sound. -/
def testState : MainState :=
  { canvas_width := 0
    canvas_height := 0
    sound := some ()
    sample_rate := 1
    left_wave := [1, 2]
    right_wave := [3, 4]
    left_fft := [Cpx.zero]
    right_fft := [Cpx.zero]
    left_rev := [0]
    right_rev := [0]
    directions := [DirectionalSource.new] }

/-! ### Channel splitter lemmas -/

theorem enumFrom_filter_even_length (s : List ℤ) : ∀ n : ℕ,
    ((List.enumFrom n s).filterMap fun p =>
        if p.1 % 2 = 0 then some p.2 else none).length =
      if n % 2 = 0 then (s.length + 1) / 2 else s.length / 2 := by
  induction s with
  | nil => intro n; simp
  | cons a t ih =>
    intro n
    by_cases hn : n % 2 = 0
    · have hn1 : ¬((n + 1) % 2 = 0) := by omega
      simp only [List.enumFrom_cons, List.filterMap_cons, if_pos hn, List.length_cons,
        ih (n + 1), if_neg hn1]
      omega
    · have hn1 : (n + 1) % 2 = 0 := by omega
      simp only [List.enumFrom_cons, List.filterMap_cons, if_neg hn, List.length_cons,
        ih (n + 1), if_pos hn1]

theorem enumFrom_filter_odd_length (s : List ℤ) : ∀ n : ℕ,
    ((List.enumFrom n s).filterMap fun p =>
        if p.1 % 2 ≠ 0 then some p.2 else none).length =
      if n % 2 = 0 then s.length / 2 else (s.length + 1) / 2 := by
  induction s with
  | nil => intro n; simp
  | cons a t ih =>
    intro n
    by_cases hn : n % 2 = 0
    · have hn0 : ¬(n % 2 ≠ 0) := by omega
      have hn1 : ¬((n + 1) % 2 = 0) := by omega
      simp only [List.enumFrom_cons, List.filterMap_cons, if_neg hn0, List.length_cons,
        ih (n + 1), if_neg hn1, if_pos hn]
    · have hn0 : n % 2 ≠ 0 := hn
      have hn1 : (n + 1) % 2 = 0 := by omega
      simp only [List.enumFrom_cons, List.filterMap_cons, if_pos hn0, List.length_cons,
        ih (n + 1), if_pos hn1, if_neg hn]
      omega

theorem leftChan_length (s : List ℤ) : (leftChan s).length = (s.length + 1) / 2 := by
  unfold leftChan
  rw [List.length_map, List.enum, enumFrom_filter_even_length s 0]
  simp

theorem rightChan_length (s : List ℤ) : (rightChan s).length = s.length / 2 := by
  unfold rightChan
  rw [List.length_map, List.enum, enumFrom_filter_odd_length s 0]
  simp

theorem mem_of_mem_filterMap_enumFrom {f : ℕ × ℤ → Option ℤ}
    (hf : ∀ p y, f p = some y → y = p.2) :
    ∀ (s : List ℤ) (n : ℕ) (y : ℤ), y ∈ (List.enumFrom n s).filterMap f → y ∈ s := by
  intro s
  induction s with
  | nil => intro n y h; simp at h
  | cons a t ih =>
    intro n y h
    rw [List.enumFrom_cons, List.filterMap_cons] at h
    cases hc : f (n, a) with
    | none =>
      rw [hc] at h
      exact List.mem_cons_of_mem a (ih (n + 1) y h)
    | some b =>
      rw [hc] at h
      rcases List.mem_cons.mp h with h1 | h1
      · subst h1
        rw [hf (n, a) y hc]
        exact List.mem_cons_self a t
      · exact List.mem_cons_of_mem a (ih (n + 1) y h1)

theorem mem_leftChan (s : List ℤ) (q : ℚ) (hq : q ∈ leftChan s) :
    ∃ x ∈ s, q = (x : ℚ) / (i16max : ℚ) := by
  obtain ⟨y, hy, hyq⟩ := List.mem_map.mp hq
  refine ⟨y, ?_, hyq.symm⟩
  refine mem_of_mem_filterMap_enumFrom ?_ s 0 y hy
  intro p z h
  by_cases hc : p.1 % 2 = 0
  · rw [if_pos hc] at h; injection h; omega
  · rw [if_neg hc] at h; cases h

theorem mem_rightChan (s : List ℤ) (q : ℚ) (hq : q ∈ rightChan s) :
    ∃ x ∈ s, q = (x : ℚ) / (i16max : ℚ) := by
  obtain ⟨y, hy, hyq⟩ := List.mem_map.mp hq
  refine ⟨y, ?_, hyq.symm⟩
  refine mem_of_mem_filterMap_enumFrom ?_ s 0 y hy
  intro p z h
  by_cases hc : p.1 % 2 ≠ 0
  · rw [if_pos hc] at h; injection h; omega
  · rw [if_neg hc] at h; cases h

theorem chan_value_bounds (x : ℤ) (hlo : -32768 ≤ x) (hhi : x ≤ 32767) :
    -(32768 : ℚ) / 32767 ≤ (x : ℚ) / (i16max : ℚ) ∧
      (x : ℚ) / (i16max : ℚ) ≤ 1 := by
  have hx1 : (x : ℚ) ≤ 32767 := by exact_mod_cast hhi
  have hx0 : -(32768 : ℚ) ≤ (x : ℚ) := by exact_mod_cast hlo
  have hipos : (0 : ℚ) < (i16max : ℚ) := by norm_num [i16max]
  constructor
  · rw [show ((i16max : ℤ) : ℚ) = (32767 : ℚ) from by norm_num [i16max],
      div_le_div_iff_of_pos_right (by norm_num)]
    exact hx0
  · rw [div_le_one hipos]
    calc (x : ℚ) ≤ 32767 := hx1
    _ = (i16max : ℚ) := by norm_num [i16max]

/-! ### Claim theorems -/

/-- C1: on every frame in which analysis runs (sound playing and the window
fits both buffers), bin `i` is updated from the absolute value of the real
component only of each channel's spectrum at bin `i`: each smoothed value
moves by `state += (amp - state) * 0.9`, `amplitude[i]` becomes the max of
the two smoothed values, and `direction[i]` becomes
`(rightRev[i] - leftRev[i]) / max(amplitude[i], 1.0)`. -/
theorem update_per_bin_formulas (fft : List Cpx → List Cpx) (offset : ℕ)
    (s : MainState) (i : ℕ) (hs : s.sound = some ())
    (hlr : s.directions.length ≤ s.left_rev.length)
    (hrr : s.directions.length ≤ s.right_rev.length)
    (hi : i < s.directions.length)
    (h1 : offset + s.left_fft.length ≤ s.left_wave.length)
    (h2 : offset + s.right_fft.length ≤ s.right_wave.length) :
    (s.update fft true offset).left_rev.getD i 0 =
      s.left_rev.getD i 0 +
        (|((s.update fft true offset).left_fft.getD i Cpx.zero).re| -
          s.left_rev.getD i 0) * (9 / 10) ∧
    (s.update fft true offset).right_rev.getD i 0 =
      s.right_rev.getD i 0 +
        (|((s.update fft true offset).right_fft.getD i Cpx.zero).re| -
          s.right_rev.getD i 0) * (9 / 10) ∧
    ((s.update fft true offset).directions.getD i DirectionalSource.new).amp =
      max ((s.update fft true offset).left_rev.getD i 0)
        ((s.update fft true offset).right_rev.getD i 0) ∧
    ((s.update fft true offset).directions.getD i DirectionalSource.new).dir =
      ((s.update fft true offset).right_rev.getD i 0 -
        (s.update fft true offset).left_rev.getD i 0) /
        max (((s.update fft true offset).directions.getD i DirectionalSource.new).amp) 1 := by
  have hG := runBins_getD
    (fft (((s.left_wave.drop offset).take s.left_fft.length).map fun a => Cpx.mk a 0))
    (fft (((s.right_wave.drop offset).take s.right_fft.length).map fun a => Cpx.mk a 0))
    s.left_rev s.right_rev s.directions hlr hrr i hi
  rw [update_of_analyzing fft offset s hs h1 h2]
  simp only [smoothStep] at hG
  refine ⟨hG.1, hG.2.1, ?_, ?_⟩
  · simp only [hG.1, hG.2.1, hG.2.2]
  · simp only [hG.1, hG.2.1, hG.2.2]

/-- C1 witness: concrete one-bin state, identity transform, offset 1. -/
theorem update_per_bin_formulas_witness :
    (testState.update id true 1).left_rev.getD 0 0 =
      testState.left_rev.getD 0 0 +
        (|((testState.update id true 1).left_fft.getD 0 Cpx.zero).re| -
          testState.left_rev.getD 0 0) * (9 / 10) ∧
    (testState.update id true 1).right_rev.getD 0 0 =
      testState.right_rev.getD 0 0 +
        (|((testState.update id true 1).right_fft.getD 0 Cpx.zero).re| -
          testState.right_rev.getD 0 0) * (9 / 10) ∧
    ((testState.update id true 1).directions.getD 0 DirectionalSource.new).amp =
      max ((testState.update id true 1).left_rev.getD 0 0)
        ((testState.update id true 1).right_rev.getD 0 0) ∧
    ((testState.update id true 1).directions.getD 0 DirectionalSource.new).dir =
      ((testState.update id true 1).right_rev.getD 0 0 -
        (testState.update id true 1).left_rev.getD 0 0) /
        max (((testState.update id true 1).directions.getD 0 DirectionalSource.new).amp) 1 :=
  update_per_bin_formulas id 1 testState 0 rfl (by decide) (by decide) (by decide)
    (by decide) (by decide)

/-- C2: whenever no sound is playing, or the window starting at the computed
offset overruns either channel buffer, `update` leaves the whole state —
in particular the direction array and both smoothed-energy arrays — exactly
as it was, with no partial update and no error. -/
theorem update_freeze (fft : List Cpx → List Cpx) (playing : Bool) (offset : ℕ)
    (s : MainState)
    (h : s.sound = none ∨ playing = false ∨
      s.left_wave.length < offset + s.left_fft.length ∨
      s.right_wave.length < offset + s.right_fft.length) :
    s.update fft playing offset = s :=
  update_of_frozen fft playing offset s h

/-- C2 witness: the window at offset 5 overruns the two-sample buffers. -/
theorem update_freeze_witness : testState.update id true 5 = testState :=
  update_freeze id true 5 testState (by decide)

/-- C3: after construction the spectrum buffers have length exactly
`N = 1024` and the smoothed-energy and direction arrays have length exactly
`N/2 = 512`, and neither `update` (for a transform writing one output per
input) nor `load_sound` changes any of these lengths. -/
theorem buffer_sizes_invariant (w h : ℚ) (fft : List Cpx → List Cpx)
    (hfft : ∀ l, (fft l).length = l.length) (playing : Bool) (offset : ℕ)
    (s : MainState) (audioNew : Except GErr Unit) (dec : Except String Decoded) :
    (MainState.new w h).sizesOk ∧
    (s.sizesOk → (s.update fft playing offset).sizesOk) ∧
    (s.sizesOk → ((s.load_sound audioNew dec).1).sizesOk) := by
  refine ⟨?_, fun hsz => update_sizesOk fft hfft playing offset s hsz, fun hsz => ?_⟩
  · refine ⟨?_, ?_, ?_, ?_, ?_⟩
    · show (List.replicate fft_size Cpx.zero).length = 1024
      rw [List.length_replicate]
      decide
    · show (List.replicate fft_size Cpx.zero).length = 1024
      rw [List.length_replicate]
      decide
    · show (List.replicate (fft_size / 2) (0 : ℚ)).length = 512
      rw [List.length_replicate]
      decide
    · show (List.replicate (fft_size / 2) (0 : ℚ)).length = 512
      rw [List.length_replicate]
      decide
    · show (List.replicate (fft_size / 2) DirectionalSource.new).length = 512
      rw [List.length_replicate]
      decide
  · have hp := load_sound_analysis_fields s audioNew dec
    exact ⟨hp.2.2.2.1 ▸ hsz.1, hp.2.2.2.2 ▸ hsz.2.1, hp.1 ▸ hsz.2.2.1,
      hp.2.1 ▸ hsz.2.2.2.1, hp.2.2.1 ▸ hsz.2.2.2.2⟩

/-- C3 witness: the freshly constructed state, identity transform, a
successful stereo decode. -/
theorem buffer_sizes_invariant_witness :
    (MainState.new 1024 768).sizesOk ∧
    ((MainState.new 1024 768).sizesOk →
      ((MainState.new 1024 768).update id true 0).sizesOk) ∧
    ((MainState.new 1024 768).sizesOk →
      (((MainState.new 1024 768).load_sound (Except.ok ())
        (Except.ok ⟨2, 44100, []⟩)).1).sizesOk) :=
  buffer_sizes_invariant 1024 768 id (fun _ => rfl) true 0 (MainState.new 1024 768)
    (Except.ok ()) (Except.ok ⟨2, 44100, []⟩)

/-- C4 counterexample: the claim says every produced value lies in
`[-1.0, 1.0]`, but the minimum i16 sample `-32768` divided by
`i16::MAX = 32767` is strictly below `-1`. -/
theorem channel_splitter_below_neg_one :
    (leftChan [-32768]).getD 0 0 < -1 := by
  have h : (leftChan [-32768]).getD 0 0 = ((-32768 : ℤ) : ℚ) / (i16max : ℚ) := rfl
  rw [h, show ((-32768 : ℤ) : ℚ) = -32768 from by norm_num,
    show ((i16max : ℤ) : ℚ) = 32767 from by norm_num [i16max]]
  norm_num

/-- C4 (amended): for a decoded interleaved sequence of i16 samples of
length `L`, the splitter yields the even-index samples (left, length
`⌈L/2⌉`) and the odd-index samples (right, length `⌊L/2⌋`), each divided
by the maximum signed 16-bit value `32767`; every resulting value lies in
`[-32768/32767, 1]` — the claimed lower bound `-1.0` is slightly exceeded
at the minimum sample `-32768`. -/
theorem channel_splitter_bounds (samples : List ℤ)
    (hs : ∀ x ∈ samples, -32768 ≤ x ∧ x ≤ 32767) :
    (leftChan samples).length = (samples.length + 1) / 2 ∧
    (rightChan samples).length = samples.length / 2 ∧
    (∀ q ∈ leftChan samples, -(32768 : ℚ) / 32767 ≤ q ∧ q ≤ 1) ∧
    (∀ q ∈ rightChan samples, -(32768 : ℚ) / 32767 ≤ q ∧ q ≤ 1) := by
  refine ⟨leftChan_length samples, rightChan_length samples, ?_, ?_⟩
  · intro q hq
    obtain ⟨x, hx, rfl⟩ := mem_leftChan samples q hq
    exact chan_value_bounds x (hs x hx).1 (hs x hx).2
  · intro q hq
    obtain ⟨x, hx, rfl⟩ := mem_rightChan samples q hq
    exact chan_value_bounds x (hs x hx).1 (hs x hx).2

/-- C4 witness: a concrete three-sample interleaved stream. -/
theorem channel_splitter_bounds_witness :
    (leftChan [-32768, 32767, 100]).length = ((3 : ℕ) + 1) / 2 ∧
    (rightChan [-32768, 32767, 100]).length = (3 : ℕ) / 2 ∧
    (∀ q ∈ leftChan [-32768, 32767, 100], -(32768 : ℚ) / 32767 ≤ q ∧ q ≤ 1) ∧
    (∀ q ∈ rightChan [-32768, 32767, 100], -(32768 : ℚ) / 32767 ≤ q ∧ q ≤ 1) :=
  channel_splitter_bounds [-32768, 32767, 100] (by decide)

/-- C5: starting at 0 and feeding one bin a constant magnitude `M`, the
smoothed value after `k` updates equals `(1 - 0.1^k) * M` exactly, and the
sequence rises monotonically toward `M`. -/
theorem smoothing_convergence (M : ℚ) (hM : 0 ≤ M) (k : ℕ) :
    (fun st => smoothStep st M)^[k] 0 = (1 - (1 / 10) ^ k) * M ∧
    (fun st => smoothStep st M)^[k] 0 ≤ (fun st => smoothStep st M)^[k + 1] 0 ∧
    (fun st => smoothStep st M)^[k] 0 ≤ M := by
  have key : ∀ j : ℕ, (fun st => smoothStep st M)^[j] 0 = (1 - (1 / 10) ^ j) * M := by
    intro j
    induction j with
    | zero => simp
    | succ m ihm =>
      rw [Function.iterate_succ_apply', ihm]
      simp only [smoothStep]
      rw [pow_succ]
      ring
  have hpow : ∀ j : ℕ, (0 : ℚ) ≤ (1 / 10) ^ j := fun j => pow_nonneg (by norm_num) j
  have hstep : ((1 : ℚ) / 10) ^ (k + 1) ≤ (1 / 10) ^ k :=
    pow_le_pow_of_le_one (by norm_num) (by norm_num) (by omega)
  refine ⟨key k, ?_, ?_⟩
  · rw [key k, key (k + 1)]
    nlinarith [hpow k, hpow (k + 1)]
  · rw [key k]
    nlinarith [hpow k]

/-- C5 witness: `M = 2`, three updates reach `(1 - 0.001) * 2`. -/
theorem smoothing_convergence_witness :
    (fun st => smoothStep st 2)^[3] 0 = (1 - (1 / 10) ^ 3) * 2 ∧
    (fun st => smoothStep st 2)^[3] 0 ≤ (fun st => smoothStep st 2)^[3 + 1] 0 ∧
    (fun st => smoothStep st 2)^[3] 0 ≤ 2 :=
  smoothing_convergence 2 (by decide) 3

/-! ### Helpers for the remaining claims -/

theorem new_sizesOk (w h : ℚ) : (MainState.new w h).sizesOk := by
  refine ⟨?_, ?_, ?_, ?_, ?_⟩
  · show (List.replicate fft_size Cpx.zero).length = 1024
    rw [List.length_replicate]; decide
  · show (List.replicate fft_size Cpx.zero).length = 1024
    rw [List.length_replicate]; decide
  · show (List.replicate (fft_size / 2) (0 : ℚ)).length = 512
    rw [List.length_replicate]; decide
  · show (List.replicate (fft_size / 2) (0 : ℚ)).length = 512
    rw [List.length_replicate]; decide
  · show (List.replicate (fft_size / 2) DirectionalSource.new).length = 512
    rw [List.length_replicate]; decide

theorem frozen_of_not_analyzing (fft : List Cpx → List Cpx) (playing : Bool)
    (offset : ℕ) (s : MainState)
    (h : ¬(s.sound = some () ∧ playing = true ∧
      offset + s.left_fft.length ≤ s.left_wave.length ∧
      offset + s.right_fft.length ≤ s.right_wave.length)) :
    s.update fft playing offset = s := by
  apply update_of_frozen
  by_cases h1 : s.sound = some ()
  · by_cases h2 : playing = true
    · by_cases h3 : offset + s.left_fft.length ≤ s.left_wave.length
      · by_cases h4 : offset + s.right_fft.length ≤ s.right_wave.length
        · exact absurd ⟨h1, h2, h3, h4⟩ h
        · exact Or.inr (Or.inr (Or.inr (by omega)))
      · exact Or.inr (Or.inr (Or.inl (by omega)))
    · refine Or.inr (Or.inl ?_)
      revert h2; cases playing <;> simp
  · refine Or.inl ?_
    cases hs : s.sound with
    | none => rfl
    | some u => exact absurd hs h1

/-- The per-bin state of C6: correct buffer sizes, bin `i` silent in every
array. -/
def zeroBinInv (i : ℕ) (s : MainState) : Prop :=
  s.sizesOk ∧ s.left_rev.getD i 0 = 0 ∧ s.right_rev.getD i 0 = 0 ∧
  s.directions.getD i DirectionalSource.new = DirectionalSource.new

theorem zeroBinInv_update (fft : List Cpx → List Cpx)
    (hfft : ∀ l, (fft l).length = l.length) (i : ℕ) (hi : i < 512)
    (hzero : ∀ l, ((fft l).getD i Cpx.zero).re = 0)
    (playing : Bool) (offset : ℕ) (s : MainState) (h : zeroBinInv i s) :
    zeroBinInv i (s.update fft playing offset) := by
  obtain ⟨hsz, h1, h2, h3⟩ := h
  refine ⟨update_sizesOk fft hfft playing offset s hsz, ?_⟩
  by_cases hcase : s.sound = some () ∧ playing = true ∧
      offset + s.left_fft.length ≤ s.left_wave.length ∧
      offset + s.right_fft.length ≤ s.right_wave.length
  · obtain ⟨ha, hb, hc, hd⟩ := hcase
    subst hb
    rw [update_of_analyzing fft offset s ha hc hd]
    have hids : i < s.directions.length := by rw [hsz.2.2.2.2]; exact hi
    have hlr : s.directions.length ≤ s.left_rev.length := by
      rw [hsz.2.2.2.2, hsz.2.2.1]
    have hrr : s.directions.length ≤ s.right_rev.length := by
      rw [hsz.2.2.2.2, hsz.2.2.2.1]
    obtain ⟨e1, e2, e3⟩ := runBins_getD
      (fft (((s.left_wave.drop offset).take s.left_fft.length).map fun a => Cpx.mk a 0))
      (fft (((s.right_wave.drop offset).take s.right_fft.length).map fun a => Cpx.mk a 0))
      s.left_rev s.right_rev s.directions hlr hrr i hids
    refine ⟨?_, ?_, ?_⟩
    · exact e1.trans (by rw [h1, hzero]; simp [smoothStep])
    · exact e2.trans (by rw [h2, hzero]; simp [smoothStep])
    · exact e3.trans (by rw [h1, h2, hzero, hzero]; simp [smoothStep, DirectionalSource.new])
  · rw [frozen_of_not_analyzing fft playing offset s hcase]
    exact ⟨h1, h2, h3⟩

theorem zeroBinInv_updates (fft : List Cpx → List Cpx)
    (hfft : ∀ l, (fft l).length = l.length) (i : ℕ) (hi : i < 512)
    (hzero : ∀ l, ((fft l).getD i Cpx.zero).re = 0) (steps : List (Bool × ℕ)) :
    ∀ s, zeroBinInv i s → zeroBinInv i (s.updates fft steps) := by
  induction steps with
  | nil => intro s h; exact h
  | cons p t ih =>
    intro s h
    exact ih (s.update fft p.1 p.2)
      (zeroBinInv_update fft hfft i hi hzero p.1 p.2 s h)

theorem foldl_binStep_symm (lf : List Cpx) (l : List ℕ) :
    ∀ acc : List ℚ × List ℚ × List DirectionalSource, acc.1 = acc.2.1 →
      (l.foldl (binStep lf lf) acc).1 = (l.foldl (binStep lf lf) acc).2.1 := by
  induction l with
  | nil => intro acc h; exact h
  | cons a t ih =>
    intro acc h
    rw [List.foldl_cons]
    apply ih
    simp only [binStep]
    rw [h]

theorem runBins_symm (lf : List Cpx) (lr : List ℚ)
    (dirs : List DirectionalSource) :
    (runBins lf lf lr lr dirs).1 = (runBins lf lf lr lr dirs).2.1 :=
  foldl_binStep_symm lf (List.range dirs.length) (lr, lr, dirs) rfl

/-! ### Remaining claim theorems -/

/-- C6: if the transform yields a zero real component at bin `i` on every
input and bin `i` starts silent, then after any sequence of frames
`amplitude[i] = 0`, `direction[i] = 0`, the smoothed energies stay `0`,
and the division's denominator `max(amplitude[i], 1.0)` is at least 1, so
no division by zero occurs. -/
theorem zero_bin_stability (fft : List Cpx → List Cpx)
    (hfft : ∀ l, (fft l).length = l.length) (i : ℕ) (hi : i < 512)
    (hzero : ∀ l, ((fft l).getD i Cpx.zero).re = 0)
    (s : MainState) (hsz : s.sizesOk)
    (h1 : s.left_rev.getD i 0 = 0) (h2 : s.right_rev.getD i 0 = 0)
    (h3 : s.directions.getD i DirectionalSource.new = DirectionalSource.new)
    (steps : List (Bool × ℕ)) :
    (s.updates fft steps).left_rev.getD i 0 = 0 ∧
    (s.updates fft steps).right_rev.getD i 0 = 0 ∧
    ((s.updates fft steps).directions.getD i DirectionalSource.new).amp = 0 ∧
    ((s.updates fft steps).directions.getD i DirectionalSource.new).dir = 0 ∧
    (1 : ℚ) ≤ max (((s.updates fft steps).directions.getD i
      DirectionalSource.new).amp) 1 := by
  obtain ⟨-, k1, k2, k3⟩ :=
    zeroBinInv_updates fft hfft i hi hzero steps s ⟨hsz, h1, h2, h3⟩
  exact ⟨k1, k2, by rw [k3]; rfl, by rw [k3]; rfl, le_max_right _ _⟩

/-- C6 witness: a transform that zeroes every bin, one analyzed frame from
the fresh state. -/
theorem zero_bin_stability_witness :
    ((MainState.new 0 0).updates (fun l => l.map fun _ => Cpx.zero)
      [(true, 0)]).left_rev.getD 0 0 = 0 ∧
    ((MainState.new 0 0).updates (fun l => l.map fun _ => Cpx.zero)
      [(true, 0)]).right_rev.getD 0 0 = 0 ∧
    (((MainState.new 0 0).updates (fun l => l.map fun _ => Cpx.zero)
      [(true, 0)]).directions.getD 0 DirectionalSource.new).amp = 0 ∧
    (((MainState.new 0 0).updates (fun l => l.map fun _ => Cpx.zero)
      [(true, 0)]).directions.getD 0 DirectionalSource.new).dir = 0 ∧
    (1 : ℚ) ≤ max ((((MainState.new 0 0).updates
      (fun l => l.map fun _ => Cpx.zero)
      [(true, 0)]).directions.getD 0 DirectionalSource.new).amp) 1 :=
  zero_bin_stability (fun l => l.map fun _ => Cpx.zero)
    (fun l => by rw [List.length_map]) 0 (by decide)
    (fun l => by cases l <;> rfl) (MainState.new 0 0) (new_sizesOk 0 0)
    rfl rfl rfl [(true, 0)]

/-- C7: with identical channel content (same waves, same window length,
equal smoothing state), the two smoothed-energy arrays remain equal after
any update, and on an analyzed frame every bin's direction is `0`. -/
theorem mono_duplicate_centered (fft : List Cpx → List Cpx) (playing : Bool)
    (offset : ℕ) (s : MainState)
    (hw : s.left_wave = s.right_wave)
    (hf : s.left_fft.length = s.right_fft.length)
    (hr : s.left_rev = s.right_rev)
    (hlr : s.directions.length ≤ s.left_rev.length) :
    (s.update fft playing offset).left_rev =
      (s.update fft playing offset).right_rev ∧
    (s.sound = some () → playing = true →
      offset + s.left_fft.length ≤ s.left_wave.length →
      offset + s.right_fft.length ≤ s.right_wave.length →
      ∀ i, i < (s.update fft playing offset).directions.length →
        ((s.update fft playing offset).directions.getD i
          DirectionalSource.new).dir = 0) := by
  have hRL : fft (((s.right_wave.drop offset).take s.right_fft.length).map
        fun a => Cpx.mk a 0) =
      fft (((s.left_wave.drop offset).take s.left_fft.length).map
        fun a => Cpx.mk a 0) := by
    rw [hw, hf]
  constructor
  · by_cases hcase : s.sound = some () ∧ playing = true ∧
        offset + s.left_fft.length ≤ s.left_wave.length ∧
        offset + s.right_fft.length ≤ s.right_wave.length
    · obtain ⟨ha, hb, hc, hd⟩ := hcase
      subst hb
      rw [update_of_analyzing fft offset s ha hc hd]
      have key : (runBins
          (fft (((s.left_wave.drop offset).take s.left_fft.length).map
            fun a => Cpx.mk a 0))
          (fft (((s.right_wave.drop offset).take s.right_fft.length).map
            fun a => Cpx.mk a 0))
          s.left_rev s.right_rev s.directions).1 = (runBins
          (fft (((s.left_wave.drop offset).take s.left_fft.length).map
            fun a => Cpx.mk a 0))
          (fft (((s.right_wave.drop offset).take s.right_fft.length).map
            fun a => Cpx.mk a 0))
          s.left_rev s.right_rev s.directions).2.1 := by
        rw [hRL, ← hr]
        exact runBins_symm _ s.left_rev s.directions
      exact key
    · rw [frozen_of_not_analyzing fft playing offset s hcase]
      exact hr
  · intro ha hb hc hd i hilen
    subst hb
    have hlen3 : (s.update fft true offset).directions.length =
        s.directions.length := by
      rw [update_of_analyzing fft offset s ha hc hd]
      exact (runBins_lengths _ _ _ _ _).2.2
    have hi2 : i < s.directions.length := hlen3 ▸ hilen
    obtain ⟨-, -, e3⟩ := runBins_getD
      (fft (((s.left_wave.drop offset).take s.left_fft.length).map
        fun a => Cpx.mk a 0))
      (fft (((s.left_wave.drop offset).take s.left_fft.length).map
        fun a => Cpx.mk a 0))
      s.left_rev s.left_rev s.directions hlr hlr i hi2
    have hdir : ((runBins
        (fft (((s.left_wave.drop offset).take s.left_fft.length).map
          fun a => Cpx.mk a 0))
        (fft (((s.right_wave.drop offset).take s.right_fft.length).map
          fun a => Cpx.mk a 0))
        s.left_rev s.right_rev s.directions).2.2.getD i
          DirectionalSource.new).dir = 0 := by
      rw [hRL, ← hr, e3]
      simp
    rw [update_of_analyzing fft offset s ha hc hd]
    exact hdir

/-- A symmetric variant of `testState`: both channels identical. -/
def testStateSym : MainState :=
  { canvas_width := 0
    canvas_height := 0
    sound := some ()
    sample_rate := 1
    left_wave := [1, 2]
    right_wave := [1, 2]
    left_fft := [Cpx.zero]
    right_fft := [Cpx.zero]
    left_rev := [5]
    right_rev := [5]
    directions := [DirectionalSource.new] }

/-- C7 witness: identical two-sample channels, one bin, one analyzed
frame. -/
theorem mono_duplicate_centered_witness :
    (testStateSym.update id true 0).left_rev =
      (testStateSym.update id true 0).right_rev ∧
    (testStateSym.sound = some () → true = true →
      0 + testStateSym.left_fft.length ≤ testStateSym.left_wave.length →
      0 + testStateSym.right_fft.length ≤ testStateSym.right_wave.length →
      ∀ i, i < (testStateSym.update id true 0).directions.length →
        ((testStateSym.update id true 0).directions.getD i
          DirectionalSource.new).dir = 0) :=
  mono_duplicate_centered id true 0 testStateSym rfl rfl rfl (by decide)

/-- C8: with the playback source created, a decodable source loads
successfully exactly when it reports 2 channels, any other channel count
produces the descriptive `AudioError "Channels must be stereo"`, and a
decode failure is propagated as a `FilesystemError`. -/
theorem load_channel_check (s : MainState) (d : Decoded) (e : String) :
    ((s.load_sound (Except.ok ()) (Except.ok d)).2 =
      if d.channels = 2 then Except.ok ()
      else Except.error (GErr.AudioError "Channels must be stereo")) ∧
    (s.load_sound (Except.ok ()) (Except.error e)).2 =
      Except.error (GErr.FilesystemError e) := by
  constructor
  · by_cases hc : d.channels = 2 <;> simp [MainState.load_sound, hc]
  · rfl

/-- C9 counterexample: loading a stereo decode overwrites the stored sample
rate, so loading does not only clear/replace the channel buffers and the
playback source. -/
theorem load_changes_sample_rate :
    ((MainState.new 1024 768).load_sound (Except.ok ())
        (Except.ok ⟨2, 44100, []⟩)).1.sample_rate ≠
      (MainState.new 1024 768).sample_rate := by
  decide

/-- C9 (amended): loading a new sound leaves both smoothed-energy arrays,
the direction array (and the spectrum buffers) unchanged — they are zeroed
only at construction; besides the channel sample buffers and the playback
source, loading also stores the decoded sample rate on a successful stereo
decode. -/
theorem load_preserves_analysis_state (s : MainState) (w h : ℚ)
    (a : Except GErr Unit) (dec : Except String Decoded) :
    (s.load_sound a dec).1.left_rev = s.left_rev ∧
    (s.load_sound a dec).1.right_rev = s.right_rev ∧
    (s.load_sound a dec).1.directions = s.directions ∧
    (s.load_sound a dec).1.left_fft = s.left_fft ∧
    (s.load_sound a dec).1.right_fft = s.right_fft ∧
    (MainState.new w h).left_rev = List.replicate 512 0 ∧
    (MainState.new w h).right_rev = List.replicate 512 0 ∧
    (MainState.new w h).directions = List.replicate 512 DirectionalSource.new := by
  have hp := load_sound_analysis_fields s a dec
  have e2 : fft_size / 2 = 512 := by decide
  refine ⟨hp.1, hp.2.1, hp.2.2.1, hp.2.2.2.1, hp.2.2.2.2, ?_, ?_, ?_⟩
  · show List.replicate (fft_size / 2) (0 : ℚ) = List.replicate 512 0
    rw [e2]
  · show List.replicate (fft_size / 2) (0 : ℚ) = List.replicate 512 0
    rw [e2]
  · show List.replicate (fft_size / 2) DirectionalSource.new =
      List.replicate 512 DirectionalSource.new
    rw [e2]

/-- C10: if the smoothed energies at bin `i` are non-negative going into
the per-bin update, they stay non-negative, `amplitude[i]` is non-negative,
and the computed `direction[i]` lies in `[-1, 1]` even without a clamp. -/
theorem direction_bounded (lf rf : List Cpx) (lr rr : List ℚ)
    (dirs : List DirectionalSource) (i : ℕ)
    (hlr : dirs.length ≤ lr.length) (hrr : dirs.length ≤ rr.length)
    (hi : i < dirs.length) (h1 : 0 ≤ lr.getD i 0) (h2 : 0 ≤ rr.getD i 0) :
    0 ≤ (runBins lf rf lr rr dirs).1.getD i 0 ∧
    0 ≤ (runBins lf rf lr rr dirs).2.1.getD i 0 ∧
    0 ≤ ((runBins lf rf lr rr dirs).2.2.getD i DirectionalSource.new).amp ∧
    -1 ≤ ((runBins lf rf lr rr dirs).2.2.getD i DirectionalSource.new).dir ∧
    ((runBins lf rf lr rr dirs).2.2.getD i DirectionalSource.new).dir ≤ 1 := by
  obtain ⟨e1, e2, e3⟩ := runBins_getD lf rf lr rr dirs hlr hrr i hi
  rw [e1, e2, e3]
  have hA : (0 : ℚ) ≤ |(lf.getD i Cpx.zero).re| := abs_nonneg _
  have hB : (0 : ℚ) ≤ |(rf.getD i Cpx.zero).re| := abs_nonneg _
  have hl0 : 0 ≤ smoothStep (lr.getD i 0) |(lf.getD i Cpx.zero).re| := by
    simp only [smoothStep]; linarith
  have hr0 : 0 ≤ smoothStep (rr.getD i 0) |(rf.getD i Cpx.zero).re| := by
    simp only [smoothStep]; linarith
  have hmax0 : 0 ≤ max (smoothStep (lr.getD i 0) |(lf.getD i Cpx.zero).re|)
      (smoothStep (rr.getD i 0) |(rf.getD i Cpx.zero).re|) :=
    le_trans hl0 (le_max_left _ _)
  have hDirs : (1 : ℚ) ≤ max (max (smoothStep (lr.getD i 0)
        |(lf.getD i Cpx.zero).re|)
      (smoothStep (rr.getD i 0) |(rf.getD i Cpx.zero).re|)) 1 :=
    le_max_right _ _
  have hDpos : (0 : ℚ) < max (max (smoothStep (lr.getD i 0)
        |(lf.getD i Cpx.zero).re|)
      (smoothStep (rr.getD i 0) |(rf.getD i Cpx.zero).re|)) 1 :=
    lt_of_lt_of_le one_pos hDirs
  have hub1 : smoothStep (lr.getD i 0) |(lf.getD i Cpx.zero).re| ≤
      max (max (smoothStep (lr.getD i 0) |(lf.getD i Cpx.zero).re|)
        (smoothStep (rr.getD i 0) |(rf.getD i Cpx.zero).re|)) 1 :=
    le_trans (le_max_left _ _) (le_max_left _ _)
  have hub2 : smoothStep (rr.getD i 0) |(rf.getD i Cpx.zero).re| ≤
      max (max (smoothStep (lr.getD i 0) |(lf.getD i Cpx.zero).re|)
        (smoothStep (rr.getD i 0) |(rf.getD i Cpx.zero).re|)) 1 :=
    le_trans (le_max_right _ _) (le_max_left _ _)
  refine ⟨hl0, hr0, hmax0, ?_, ?_⟩
  · show (-1 : ℚ) ≤ _ / _
    rw [le_div_iff₀ hDpos]
    nlinarith
  · show _ / _ ≤ (1 : ℚ)
    rw [div_le_one hDpos]
    linarith

/-- C10 witness: one bin, spectra with real parts `-3` and `1`, zero
initial smoothing state. -/
theorem direction_bounded_witness :
    0 ≤ (runBins [Cpx.mk (-3) 0] [Cpx.mk 1 0] [0] [0]
      [DirectionalSource.new]).1.getD 0 0 ∧
    0 ≤ (runBins [Cpx.mk (-3) 0] [Cpx.mk 1 0] [0] [0]
      [DirectionalSource.new]).2.1.getD 0 0 ∧
    0 ≤ ((runBins [Cpx.mk (-3) 0] [Cpx.mk 1 0] [0] [0]
      [DirectionalSource.new]).2.2.getD 0 DirectionalSource.new).amp ∧
    -1 ≤ ((runBins [Cpx.mk (-3) 0] [Cpx.mk 1 0] [0] [0]
      [DirectionalSource.new]).2.2.getD 0 DirectionalSource.new).dir ∧
    ((runBins [Cpx.mk (-3) 0] [Cpx.mk 1 0] [0] [0]
      [DirectionalSource.new]).2.2.getD 0 DirectionalSource.new).dir ≤ 1 :=
  direction_bounded [Cpx.mk (-3) 0] [Cpx.mk 1 0] [0] [0]
    [DirectionalSource.new] 0 (by decide) (by decide) (by decide)
    (by decide) (by decide)

end StereoVis
